import Mathlib

/-!
Verification of the beartype type-check compiler core.

The development shallowly embeds the check-compilation core of the
repository: the per-node-kind code templates of
`src/beartype/_decor/_code/_pep/_pepsnip.py`, the wrapper code factory of
`src/beartype/_decor/_wrapper/_wrappercode.py` and the interned symbol
names of `src/beartype/_check/checkmagic.py`.  Generated Python code is
embedded by its boolean semantics: each template constant's boolean shape
becomes the corresponding arm of the `pep_check` evaluator, and the purely
textual assembly claims are modelled over `List Char` (one character per
Python `str` character).
-/

namespace Beartype

/-- Runtime type references usable in `isinstance` membership tests.  The
source templates test `isinstance({pith_curr_expr}, {hint_curr_expr})`;
the type objects themselves are opaque, so a small closed universe of the
types exercised by the spec suffices. -/
inductive TypeRef where
  | int
  | str
  | list
  | tuple
deriving DecidableEq, Repr

/-- Python values flowing through a compiled check: scalars, standard
containers (lists, the guaranteed `O(1)`-indexable sequence of the
templates) and tuples. -/
inductive Val where
  | int (n : Int)
  | str (s : String)
  | list (xs : List Val)
  | tuple (xs : List Val)

/-- Semantics of the `isinstance({pith_curr_expr}, {hint_curr_expr})` test
appearing in `PEP_CODE_CHECK_HINT_NONPEP_TYPE` and in the sequence/tuple
template prefixes of `_pepsnip.py`. -/
def isinst : Val → TypeRef → Bool
  | .int _, .int => true
  | .str _, .str => true
  | .list _, .list => true
  | .tuple _, .tuple => true
  | _, _ => false

/-- Beartype configuration relevant to the compiled check: whether the
sampling policy (one pseudo-randomly indexed element per check call) is
enabled for standard containers.  It is hashable and value-equal, and it
participates in the memoization key. -/
structure Conf where
  sampling : Bool
deriving DecidableEq, Repr

/-- Modelled from the spec: the specification-node data model of spec
section 3 (the hint tree walked by the missing expression compiler
`pep_code_check_hint` / `make_check_expr`, which is not under `src/`).
`scalar` is an exact-type membership test, `union` an ordered disjunction,
`container` a homogeneous standard container, and `fixedTuple` a
positional conjunction whose zero-arity case is the empty-tuple
sentinel. -/
inductive Hint where
  | scalar (t : TypeRef)
  | union (children : List Hint)
  | container (elem : Hint)
  | fixedTuple (items : List Hint)

/-- Structural equality test on hints, used as the memoization-cache key
equality (spec section 4.5: cache-key equality is structural equality of
the specification plus value equality of the configuration). -/
def hintBeq : Hint → Hint → Bool
  | .scalar t1, .scalar t2 => t1 == t2
  | .union as, .union bs =>
      as.length == bs.length &&
      ((as.zip bs).attach.all fun p => hintBeq p.1.1 p.1.2)
  | .container e1, .container e2 => hintBeq e1 e2
  | .fixedTuple as, .fixedTuple bs =>
      as.length == bs.length &&
      ((as.zip bs).attach.all fun p => hintBeq p.1.1 p.1.2)
  | _, _ => false
termination_by a _ => sizeOf a
decreasing_by
  all_goals first
  | (obtain ⟨⟨hi, vi⟩, hmem⟩ := p
     have h1 := (List.of_mem_zip hmem).1
     have h2 := List.sizeOf_lt_of_mem h1
     simp only [Hint.union.sizeOf_spec, Hint.fixedTuple.sizeOf_spec]
     omega)
  | (simp only [Hint.container.sizeOf_spec]; omega)

/-- Modelled from the spec: the boolean semantics of the check expression
produced by the missing expression compiler for a hint tree, composed
exactly as the `_pepsnip.py` templates dictate:

* `scalar t` renders `PEP_CODE_CHECK_HINT_NONPEP_TYPE`, an `isinstance`
  test of the current pith;
* `union cs` joins every child fragment rendered by
  `PEP_CODE_CHECK_HINT_UNION_CHILD_PEP` with `or`, all against the same
  current pith (no new binding);
* `container elem` renders `PEP_CODE_CHECK_HINT_SEQUENCE_STANDARD`:
  `isinstance(pith, T) and (not pith or CHILD)` where, with sampling
  enabled, `CHILD` tests the single element
  `pith[__beartype_random_int % len(pith)]`
  (`PEP_CODE_CHECK_HINT_SEQUENCE_STANDARD_PITH_CHILD_EXPR`) and, with
  sampling disabled, `CHILD` tests every element, short-circuiting on the
  first failure;
* `fixedTuple items` renders the itemized-tuple templates: the
  `isinstance(pith, tuple)` prefix, then for the zero-arity sentinel the
  emptiness test of `PEP_CODE_CHECK_HINT_TUPLE_ITEMIZED_EMPTY`
  (`not pith`), and otherwise the exact-arity assertion together with one
  `PEP_CODE_CHECK_HINT_TUPLE_ITEMIZED_NONEMPTY_CHILD` fragment per
  position `i` testing `pith[i]`, joined with `and`.

`r` is the value of the `__beartype_random_int` local drawn once per check
invocation. -/
def pep_check (conf : Conf) (r : Nat) : Hint → Val → Bool
  | .scalar t, v => isinst v t
  | .union cs, v => cs.attach.any fun c => pep_check conf r c.1 v
  | .container elem, v =>
      isinst v .list &&
      (match v with
       | .list xs =>
           xs.isEmpty ||
             (if conf.sampling then
               match xs.get? (r % xs.length) with
               | some x => pep_check conf r elem x
               | none => false
             else xs.all fun x => pep_check conf r elem x)
       | _ => false)
  | .fixedTuple items, v =>
      isinst v .tuple &&
      (match v with
       | .tuple xs =>
           match items with
           | [] => xs.isEmpty
           | i0 :: irest =>
               xs.length == (i0 :: irest).length &&
               (((i0 :: irest).zip xs).attach.all fun p =>
                 pep_check conf r p.1.1 p.1.2)
       | _ => false)
termination_by h _ => sizeOf h
decreasing_by
  · have := List.sizeOf_lt_of_mem c.2
    simp only [Hint.union.sizeOf_spec]
    omega
  · simp only [Hint.container.sizeOf_spec]
    omega
  · simp only [Hint.container.sizeOf_spec]
    omega
  · obtain ⟨⟨hi, vi⟩, hmem⟩ := p
    have h1 := (List.of_mem_zip hmem).1
    have h2 := List.sizeOf_lt_of_mem h1
    simp only [Hint.fixedTuple.sizeOf_spec, List.cons.sizeOf_spec] at h2 ⊢
    omega

/-- Semantics of the child fragment of
`PEP_CODE_CHECK_HINT_SEQUENCE_STANDARD`: with sampling enabled, the test
of the single element `pith[__beartype_random_int % len(pith)]`; with
sampling disabled, the exhaustive test of every element. -/
def sequence_child_check (conf : Conf) (r : Nat) (elem : Hint)
    (xs : List Val) : Bool :=
  if conf.sampling then
    match xs.get? (r % xs.length) with
    | some x => pep_check conf r elem x
    | none => false
  else xs.all fun x => pep_check conf r elem x

/-- Name of the private getrandbits parameter, from
`src/beartype/_check/checkmagic.py` (`ARG_NAME_GETRANDBITS`).  It enters
the compiled scope exactly when the generated code needs the random
integer used by the sampling policy. -/
def ARG_NAME_GETRANDBITS : String := "__beartype_getrandbits"

/-- Name of the private beartypistry parameter, from
`src/beartype/_check/checkmagic.py` (`ARG_NAME_TYPISTRY`).  It doubles as
the never-passed sentinel in `PARAM_KIND_TO_PEP_CODE_GET`. -/
def ARG_NAME_TYPISTRY : String := "__beartypistry"

/-- Modelled from the spec: the scope increment accumulated by the missing
expression compiler (spec sections 4.1 and 4.3).  Scalar membership tests
reference interned types through the beartypistry; a container node with
sampling enabled additionally interns the random-integer source
(`ARG_NAME_GETRANDBITS`); each node merges its own increment with all
child increments. -/
def expr_scope (conf : Conf) : Hint → List String
  | .scalar _ => [ARG_NAME_TYPISTRY]
  | .union cs => (cs.attach.map fun c => expr_scope conf c.1).flatten
  | .container elem =>
      (if conf.sampling then [ARG_NAME_GETRANDBITS] else [ARG_NAME_TYPISTRY]) ++
        expr_scope conf elem
  | .fixedTuple items => (items.attach.map fun i => expr_scope conf i.1).flatten
termination_by h => sizeOf h
decreasing_by
  · have := List.sizeOf_lt_of_mem c.2
    simp only [Hint.union.sizeOf_spec]
    omega
  · simp only [Hint.container.sizeOf_spec]
    omega
  · have := List.sizeOf_lt_of_mem i.2
    simp only [Hint.fixedTuple.sizeOf_spec]
    omega

/-- True when the hint tree contains at least one standard-container node,
i.e. when the compiled code contains at least one sampled container check
once sampling is enabled. -/
def has_container_check : Hint → Bool
  | .scalar _ => false
  | .union cs => cs.attach.any fun c => has_container_check c.1
  | .container _ => true
  | .fixedTuple items => items.attach.any fun i => has_container_check i.1
termination_by h => sizeOf h
decreasing_by
  · have := List.sizeOf_lt_of_mem c.2
    simp only [Hint.union.sizeOf_spec]
    omega
  · have := List.sizeOf_lt_of_mem i.2
    simp only [Hint.fixedTuple.sizeOf_spec]
    omega

/-- The compiled-expression triple returned by the expression compiler: a
boolean expression (a pure function of the hint and configuration,
represented by them and run through `pep_check`), the accumulated scope,
and the set of unresolved forward-reference names (always empty for the
node kinds modelled here). -/
structure CompiledExpr where
  hint : Hint
  conf : Conf
  scope : List String
  forwardrefs : List String

/-- Modelled from the spec: the core routine of the expression compiler
(`make_check_expr`, imported by `_wrappercode.py` but not under `src/`):
a pure function of the `(hint, conf)` pair producing the compiled
triple. -/
def make_check_expr (hint : Hint) (conf : Conf) : CompiledExpr :=
  ⟨hint, conf, expr_scope conf hint, []⟩

/-- Behavior of a compiled expression on a candidate root value, given the
per-invocation random integer `r`. -/
def CompiledExpr.run (c : CompiledExpr) (r : Nat) (v : Val) : Bool :=
  pep_check c.conf r c.hint v

/-- Modelled from the spec: the body of
`CODE_HINT_ROOT_SUFFIX_RANDOM_INT` (defined in the missing
`_decor/_wrapper/wrappersnip.py`), the nonempty code fragment passing
`__beartype_random_int` to the violation callback. -/
def CODE_HINT_ROOT_SUFFIX_RANDOM_INT : List Char :=
  [' ', 'r', 'a', 'n', 'd', 'o', 'm', '_', 'i', 'n', 't']

/-- The wrapper code factory `make_func_wrapper_code` of
`src/beartype/_decor/_wrapper/_wrappercode.py`: it invokes
`make_check_expr` and emits `CODE_HINT_ROOT_SUFFIX_RANDOM_INT` exactly
when `ARG_NAME_GETRANDBITS` occurs in the returned scope, and emits the
empty fragment otherwise.  The first component is the compiled expression
and the second the random-integer fragment spliced into the suffix. -/
def make_func_wrapper_code (hint : Hint) (conf : Conf) :
    CompiledExpr × List Char :=
  let c := make_check_expr hint conf
  (c,
   if ARG_NAME_GETRANDBITS ∈ c.scope then CODE_HINT_ROOT_SUFFIX_RANDOM_INT
   else [])

/-- Outcome of running the root-pith check emitted by
`PEP_CODE_CHECK_HINT_ROOT` in `_pepsnip.py`.  The `violation` outcome is
the call of the injected `__beartype_raise_pep_call_exception` callback
with the checked slot's name and the root value; `compiler_exception`
is an exception escaping the compiled check harness itself, an outcome
the template never produces. -/
inductive WrapperOutcome where
  | passed
  | violation (pith_name : String) (pith_value : Val)
  | compiler_exception (msg : String)

/-- Semantics of `PEP_CODE_CHECK_HINT_ROOT`: test the root pith against
the root hint and, only if the boolean check is false, invoke the
violation-reporting callback with the slot name and the root value. -/
def pep_code_check_hint_root (conf : Conf) (r : Nat) (hint : Hint)
    (pith_name : String) (pith_value : Val) : WrapperOutcome :=
  if pep_check conf r hint pith_value then .passed
  else .violation pith_name pith_value

/-- Memoization-cache key: the `(specification, configuration)` pair
(spec section 4.5, `@callable_cached` on `make_func_wrapper_code`). -/
abbrev MemoKey := Hint × Conf

/-- Key equality for the memoization cache: structural equality of the
hint plus value equality of the configuration. -/
def keyBeq (a b : MemoKey) : Bool :=
  hintBeq a.1 b.1 && (a.2 == b.2)

/-- State of the memoization cache: stored entries plus a log recording
every invocation of the underlying compiler routine (one entry per
non-memoized call), used to state the at-most-one-compilation bound. -/
structure MemoCache where
  entries : List (MemoKey × CompiledExpr)
  compiled_log : List MemoKey

/-- Lookup of a key among the stored cache entries. -/
def cache_find (k : MemoKey) : List (MemoKey × CompiledExpr) → Option CompiledExpr
  | [] => none
  | e :: rest => if keyBeq e.1 k then some e.2 else cache_find k rest

/-- Modelled from the spec: the memoized entry point (`@callable_cached
make_func_wrapper_code`; the `callable_cached` decorator lives in the
missing `_util/cache/utilcachecall.py`).  A stored result is returned
unchanged; otherwise the compiler routine is invoked once, logged, and
its result stored and returned. -/
def get_or_compile (st : MemoCache) (k : MemoKey) :
    CompiledExpr × MemoCache :=
  match cache_find k st.entries with
  | some res => (res, st)
  | none =>
      let res := make_check_expr k.1 k.2
      (res, ⟨(k, res) :: st.entries, k :: st.compiled_log⟩)

/-- Sequentially serve a list of compilation requests against the cache. -/
def run_requests : List MemoKey → MemoCache → MemoCache
  | [], st => st
  | k :: ks, st => run_requests ks (get_or_compile st k).2

/-- Number of occurrences of a key in an invocation log, counted with the
cache's key equality. -/
def log_count (k : MemoKey) : List MemoKey → Nat
  | [] => 0
  | k2 :: rest => (if keyBeq k2 k then 1 else 0) + log_count k rest

/-- The trailing joining token emitted after each rendered union child by
`PEP_CODE_CHECK_HINT_UNION_CHILD_PEP` (its fragment ends in ` or`). -/
def OR_JOIN : List Char := [' ', 'o', 'r']

/-- The trailing joining token emitted after each rendered tuple child by
`PEP_CODE_CHECK_HINT_TUPLE_ITEMIZED_NONEMPTY_CHILD` (its fragment ends in
` and`). -/
def AND_JOIN : List Char := [' ', 'a', 'n', 'd']

/-- A rendered union child fragment: the child's code followed by the
` or` joining token, as emitted by `PEP_CODE_CHECK_HINT_UNION_CHILD_PEP`. -/
def union_child_code (child : List Char) : List Char := child ++ OR_JOIN

/-- A rendered itemized-tuple child fragment: the child's code followed by
the ` and` joining token, as emitted by
`PEP_CODE_CHECK_HINT_TUPLE_ITEMIZED_NONEMPTY_CHILD`. -/
def tuple_child_code (child : List Char) : List Char := child ++ AND_JOIN

/-- Concatenation of the per-child rendered fragments of a union or
itemized-tuple hint, in child order. -/
def render_children (childCode : List Char → List Char)
    (children : List (List Char)) : List Char :=
  (children.map childCode).flatten

/-- Modelled from the spec: the caller-side slice removing the trailing
joining token after the last child (the `_pepsnip.py` docstrings require
the caller to "manually slice the trailing suffix"; the slicing caller is
the missing expression compiler).  Python's `code[:-n]`. -/
def slice_trailing (n : Nat) (code : List Char) : List Char :=
  code.take (code.length - n)

/-- Children joined with a token strictly between consecutive children:
the shape of a completed fragment with no dangling joining operator. -/
def join_sep (tok : List Char) : List (List Char) → List Char
  | [] => []
  | [c] => c
  | c :: rest@(_ :: _) => c ++ tok ++ join_sep tok rest

/-- The localized value of a parameter inside a generated wrapper: either
an actually passed value, or the private `__beartypistry` singleton used
by `PARAM_KIND_TO_PEP_CODE_GET` as the sentinel guaranteed to never be
passed by any caller. -/
inductive Pith where
  | value (v : Val)
  | beartypistry

/-- The arguments of one call of a generated wrapper: positional `args`
and keyword `kwargs`. -/
structure WrapperCall where
  args : List Val
  kwargs : List (String × Val)

/-- Localization of a positional-or-keyword parameter, from the
`Parameter.POSITIONAL_OR_KEYWORD` snippet of `PARAM_KIND_TO_PEP_CODE_GET`:
`args[arg_index]` if enough positional arguments were passed, else
`kwargs.get(arg_name, __beartypistry)`. -/
def localize_positional_or_keyword (call : WrapperCall) (arg_index : Nat)
    (arg_name : String) : Pith :=
  if arg_index < call.args.length then
    match call.args.get? arg_index with
    | some v => .value v
    | none => .beartypistry
  else
    match call.kwargs.lookup arg_name with
    | some v => .value v
    | none => .beartypistry

/-- Localization of a keyword-only parameter, from the
`Parameter.KEYWORD_ONLY` snippet of `PARAM_KIND_TO_PEP_CODE_GET`:
`kwargs.get(arg_name, __beartypistry)`. -/
def localize_keyword_only (call : WrapperCall) (arg_name : String) : Pith :=
  match call.kwargs.lookup arg_name with
  | some v => .value v
  | none => .beartypistry

/-- Result of the guarded per-parameter check region of a generated
wrapper: the whole check body is skipped when the localized pith is the
sentinel, and otherwise runs the `PEP_CODE_CHECK_HINT_ROOT` check. -/
inductive ParamCheckResult where
  | skipped
  | checked (o : WrapperOutcome)

/-- The `if {pith_root_name} is not {param_name_typistry}:` guard of
`PARAM_KIND_TO_PEP_CODE_GET` followed by the parameter's check body. -/
def param_type_check (conf : Conf) (r : Nat) (hint : Hint)
    (pith_name : String) (p : Pith) : ParamCheckResult :=
  match p with
  | .beartypistry => .skipped
  | .value v => .checked (pep_code_check_hint_root conf r hint pith_name v)

theorem attach_all_eq {α : Type} (l : List α) (f : α → Bool) :
    (l.attach.all fun x => f ↑x) = l.all f := by
  simp [List.all_eq]

theorem attach_any_eq {α : Type} (l : List α) (f : α → Bool) :
    (l.attach.any fun x => f ↑x) = l.any f := by
  simp [List.any_eq]

theorem attach_map_eq {α β : Type} (l : List α) (f : α → β) :
    (l.attach.map fun x : {y // y ∈ l} => f x.1) = l.map f := by
  simp

theorem pep_check_scalar (conf : Conf) (r : Nat) (t : TypeRef) (v : Val) :
    pep_check conf r (.scalar t) v = isinst v t := by
  simp [pep_check]

theorem pep_check_union (conf : Conf) (r : Nat) (cs : List Hint) (v : Val) :
    pep_check conf r (.union cs) v = (cs.any fun c => pep_check conf r c v) := by
  rw [pep_check]
  exact attach_any_eq cs fun c => pep_check conf r c v

theorem pep_check_container_list (conf : Conf) (r : Nat) (elem : Hint)
    (xs : List Val) :
    pep_check conf r (.container elem) (.list xs) =
      (isinst (.list xs) .list &&
        (xs.isEmpty || sequence_child_check conf r elem xs)) := by
  rw [pep_check, sequence_child_check]

theorem pep_check_tuple (conf : Conf) (r : Nat) (items : List Hint)
    (xs : List Val) :
    pep_check conf r (.fixedTuple items) (.tuple xs) =
      (match items with
       | [] => xs.isEmpty
       | i0 :: irest =>
           xs.length == (i0 :: irest).length &&
           (((i0 :: irest).zip xs).all fun p => pep_check conf r p.1 p.2)) := by
  cases items with
  | nil => simp [pep_check, isinst]
  | cons i0 irest =>
      rw [pep_check]
      simp only [isinst, Bool.true_and]
      rw [attach_all_eq (((i0 :: irest).zip xs))
        (fun p => pep_check conf r p.1 p.2)]

theorem zip_all_iff_get (as : List Hint) (xs : List Val)
    (f : Hint → Val → Bool) (hlen : xs.length = as.length) :
    (((as.zip xs).all fun p => f p.1 p.2) = true ↔
      ∀ (i : Nat) (hi : i < as.length) (hx : i < xs.length),
        f (as.get ⟨i, hi⟩) (xs.get ⟨i, hx⟩) = true) := by
  rw [List.all_eq_true]
  constructor
  · intro h i hi hx
    have hmem : (as.zip xs).get ⟨i, by simp [List.length_zip]; omega⟩ =
        (as.get ⟨i, hi⟩, xs.get ⟨i, hx⟩) := by
      simp [List.get_zip]
    have hmem2 : (as.get ⟨i, hi⟩, xs.get ⟨i, hx⟩) ∈ as.zip xs := by
      rw [← hmem]
      exact List.get_mem _ _ _
    simpa using h _ hmem2
  · intro h p hp
    rw [List.mem_iff_get] at hp
    obtain ⟨j, hj⟩ := hp
    have hjlen := j.2
    simp only [List.length_zip] at hjlen
    rw [List.get_zip] at hj
    have h1 : j.1 < as.length := by omega
    have h2 : j.1 < xs.length := by omega
    have := h j.1 h1 h2
    rw [← hj]
    simpa using this

theorem listBeq_iff (as : List Hint)
    (ih : ∀ a ∈ as, ∀ b : Hint, (hintBeq a b = true ↔ a = b)) :
    ∀ bs : List Hint,
      ((as.length == bs.length &&
        ((as.zip bs).all fun p => hintBeq p.1 p.2)) = true ↔ as = bs) := by
  induction as with
  | nil => intro bs; cases bs <;> simp
  | cons x xs ihx =>
    intro bs
    cases bs with
    | nil => simp
    | cons y ys =>
      have hx := ih x (List.mem_cons_self x xs)
      have hxs := ihx (fun a ha b => ih a (List.mem_cons_of_mem x ha) b) ys
      simp only [List.zip_cons_cons, List.all_cons, List.length_cons] at *
      constructor
      · intro h
        simp only [Bool.and_eq_true, beq_iff_eq, Nat.add_right_cancel_iff] at h
        obtain ⟨hlen, hxy, hall⟩ := h
        have hxy2 : x = y := (hx y).mp hxy
        have hxsys : xs = ys := by
          apply hxs.mp
          simp only [Bool.and_eq_true, beq_iff_eq]
          exact ⟨hlen, hall⟩
        simp [hxy2, hxsys]
      · intro h
        injection h with h1 h2
        subst h1; subst h2
        have hxx : hintBeq x x = true := (hx x).mpr rfl
        have hrest := hxs.mpr rfl
        simp only [Bool.and_eq_true, beq_iff_eq] at hrest ⊢
        exact ⟨trivial, hxx, hrest.2⟩

theorem hintBeq_iff : ∀ (a b : Hint), hintBeq a b = true ↔ a = b := by
  have main : ∀ n (a b : Hint), sizeOf a ≤ n →
      (hintBeq a b = true ↔ a = b) := by
    intro n
    induction n with
    | zero => intro a b h; cases a <;> simp at h
    | succ n ih =>
      intro a b hsz
      have hlist : ∀ (as : List Hint), sizeOf as ≤ n →
          ∀ a ∈ as, ∀ b : Hint, (hintBeq a b = true ↔ a = b) := by
        intro as has a ha b
        apply ih
        have h1 := List.sizeOf_lt_of_mem ha
        omega
      cases a with
      | scalar t1 =>
        cases b <;> simp [hintBeq]
      | container e1 =>
        cases b <;> simp [hintBeq]
        case container e2 =>
          rw [ih e1 e2
            (by simp only [Hint.container.sizeOf_spec] at hsz; omega)]
      | union as =>
        have hsz2 : sizeOf as ≤ n := by
          simp only [Hint.union.sizeOf_spec] at hsz; omega
        cases b with
        | union bs =>
          rw [show hintBeq (Hint.union as) (Hint.union bs) =
              (as.length == bs.length &&
                ((as.zip bs).all fun p => hintBeq p.1 p.2)) by
            rw [hintBeq]
            rw [attach_all_eq (as.zip bs) fun p => hintBeq p.1 p.2]]
          rw [listBeq_iff as (hlist as hsz2) bs]
          simp
        | scalar t => simp [hintBeq]
        | container e => simp [hintBeq]
        | fixedTuple bs => simp [hintBeq]
      | fixedTuple as =>
        have hsz2 : sizeOf as ≤ n := by
          simp only [Hint.fixedTuple.sizeOf_spec] at hsz; omega
        cases b with
        | fixedTuple bs =>
          rw [show hintBeq (Hint.fixedTuple as) (Hint.fixedTuple bs) =
              (as.length == bs.length &&
                ((as.zip bs).all fun p => hintBeq p.1 p.2)) by
            rw [hintBeq]
            rw [attach_all_eq (as.zip bs) fun p => hintBeq p.1 p.2]]
          rw [listBeq_iff as (hlist as hsz2) bs]
          simp
        | scalar t => simp [hintBeq]
        | container e => simp [hintBeq]
        | union bs => simp [hintBeq]
  intro a b
  exact main (sizeOf a) a b le_rfl

theorem keyBeq_iff (a b : MemoKey) : keyBeq a b = true ↔ a = b := by
  obtain ⟨h1, c1⟩ := a
  obtain ⟨h2, c2⟩ := b
  simp only [keyBeq, Bool.and_eq_true, beq_iff_eq, hintBeq_iff,
    Prod.mk.injEq]

theorem keyBeq_refl (a : MemoKey) : keyBeq a a = true :=
  (keyBeq_iff a a).mpr rfl

/-- C1: the compiled check of a fixed-tuple hint accepts a value iff the
value is a tuple of exactly the itemized arity whose item at every
position `i` satisfies the compiled check of the `i`-th child hint, and
the zero-arity tuple sentinel accepts exactly the empty tuple. -/
theorem tuple_itemized_check_sound (conf : Conf) (r : Nat)
    (items : List Hint) (v : Val) :
    (pep_check conf r (.fixedTuple items) v = true ↔
      ∃ xs, v = .tuple xs ∧ xs.length = items.length ∧
        ∀ (i : Nat) (hi : i < items.length) (hx : i < xs.length),
          pep_check conf r (items.get ⟨i, hi⟩) (xs.get ⟨i, hx⟩) = true) ∧
    (pep_check conf r (.fixedTuple []) v = true ↔ v = .tuple []) := by
  constructor
  · cases v with
    | int n => simp [pep_check, isinst]
    | str s => simp [pep_check, isinst]
    | list xs => simp [pep_check, isinst]
    | tuple xs =>
        rw [pep_check_tuple]
        cases items with
        | nil =>
            simp only [List.length_nil]
            constructor
            · intro h
              have : xs = [] := List.isEmpty_iff.mp h
              subst this
              exact ⟨[], rfl, rfl, by intro i hi hx; omega⟩
            · rintro ⟨xs2, heq, hlen, _⟩
              injection heq with heq2
              subst heq2
              exact List.isEmpty_iff.mpr (List.length_eq_zero.mp hlen)
        | cons i0 irest =>
            simp only [Bool.and_eq_true, beq_iff_eq]
            constructor
            · rintro ⟨hlen, hall⟩
              exact ⟨xs, rfl, hlen,
                (zip_all_iff_get (i0 :: irest) xs _ hlen).mp hall⟩
            · rintro ⟨xs2, heq, hlen, hpos⟩
              injection heq with heq2
              subst heq2
              exact ⟨hlen, (zip_all_iff_get (i0 :: irest) xs _ hlen).mpr hpos⟩
  · cases v with
    | int n => simp [pep_check, isinst]
    | str s => simp [pep_check, isinst]
    | list xs => simp [pep_check, isinst]
    | tuple xs =>
        rw [pep_check_tuple]
        simp [List.isEmpty_iff]

/-- C2: the compiled check of a union hint accepts a value iff at least
one child's compiled check accepts it, the children are all tested
against the same current pith (the union introduces no new binding), and
the accept/reject outcome is invariant under permutation of the
children. -/
theorem union_check_sound (conf : Conf) (r : Nat) (cs cs2 : List Hint)
    (v : Val) :
    pep_check conf r (.union cs) v =
      (cs.any fun c => pep_check conf r c v) ∧
    (pep_check conf r (.union cs) v = true ↔
      ∃ c ∈ cs, pep_check conf r c v = true) ∧
    (cs.Perm cs2 →
      pep_check conf r (.union cs) v = pep_check conf r (.union cs2) v) := by
  refine ⟨pep_check_union conf r cs v, ?_, ?_⟩
  · rw [pep_check_union, List.any_eq_true]
  · intro hp
    rw [pep_check_union, pep_check_union]
    apply Bool.eq_iff_iff.mpr
    simp only [List.any_eq_true]
    constructor
    · rintro ⟨c, hc, h⟩; exact ⟨c, hp.mem_iff.mp hc, h⟩
    · rintro ⟨c, hc, h⟩; exact ⟨c, hp.mem_iff.mpr hc, h⟩

/-- C3: the compiled check of a standard-container hint accepts every
empty container of the expected type regardless of the element hint, and
on a container value its result is the conjunction of the `isinstance`
type test with the disjunction of emptiness and the child element
check. -/
theorem sequence_standard_empty_vacuous (conf : Conf) (r : Nat)
    (elem : Hint) :
    pep_check conf r (.container elem) (.list []) = true ∧
    (∀ xs : List Val,
      pep_check conf r (.container elem) (.list xs) =
        (isinst (.list xs) .list &&
          (xs.isEmpty || sequence_child_check conf r elem xs))) := by
  constructor
  · rw [pep_check_container_list]
    simp [isinst]
  · intro xs
    exact pep_check_container_list conf r elem xs

/-- C5: the root check emitted by `PEP_CODE_CHECK_HINT_ROOT` invokes the
violation-reporting callback iff the compiled boolean check is false, the
callback call carries exactly the checked slot's name and the original
root value, and a false check never surfaces as an exception raised by
the compiled check itself. -/
theorem root_check_callback_iff (conf : Conf) (r : Nat) (hint : Hint)
    (pith_name : String) (v : Val) :
    (pep_code_check_hint_root conf r hint pith_name v =
        .violation pith_name v ↔
      pep_check conf r hint v = false) ∧
    (∀ n2 v2,
      pep_code_check_hint_root conf r hint pith_name v = .violation n2 v2 →
        n2 = pith_name ∧ v2 = v) ∧
    (∀ msg,
      pep_code_check_hint_root conf r hint pith_name v ≠
        .compiler_exception msg) := by
  unfold pep_code_check_hint_root
  cases hc : pep_check conf r hint v <;> simp

/-- C6: with sampling enabled, the single index drawn from the
pseudo-random integer `r` for a non-empty container of length `n` lies in
`[0, n)`, and the container check reduces to the child check of exactly
the element at that index; the sampled-element expression is only
reachable on the non-empty branch, so no out-of-bounds access occurs. -/
theorem sequence_sampled_index_safe (conf : Conf) (r : Nat) (elem : Hint)
    (xs : List Val) (hs : conf.sampling = true) (hne : xs ≠ []) :
    r % xs.length < xs.length ∧
    ∀ hlt : r % xs.length < xs.length,
      pep_check conf r (.container elem) (.list xs) =
        pep_check conf r elem (xs.get ⟨r % xs.length, hlt⟩) := by
  have hpos : 0 < xs.length := List.length_pos.mpr hne
  refine ⟨Nat.mod_lt r hpos, fun hlt => ?_⟩
  rw [pep_check_container_list]
  simp only [isinst, Bool.true_and, sequence_child_check, hs, if_true]
  rw [List.get?_eq_get hlt]
  simp [List.isEmpty_iff, hne]

/-- C7: for the container `[1, 2, "x"]` of length 3 with exactly one
non-conforming element under the element hint `Scalar(int)`, some check
invocation (choice of the pseudo-random integer) accepts the container
when sampling is enabled, whereas with sampling disabled every check
invocation rejects it. -/
theorem sampling_non_exhaustive :
    (∃ r : Nat, pep_check ⟨true⟩ r (.container (.scalar .int))
      (.list [.int 1, .int 2, .str ("x")]) = true) ∧
    (∀ r : Nat, pep_check ⟨false⟩ r (.container (.scalar .int))
      (.list [.int 1, .int 2, .str ("x")]) = false) := by
  constructor
  · refine ⟨0, ?_⟩
    rw [pep_check_container_list]
    simp [isinst, sequence_child_check, pep_check_scalar]
  · intro r
    rw [pep_check_container_list]
    simp [isinst, sequence_child_check, pep_check_scalar]

theorem cache_find_extend (k k2 : MemoKey) (res : CompiledExpr)
    (entries : List (MemoKey × CompiledExpr)) :
    cache_find k ((k2, res) :: entries) =
      (if keyBeq k2 k then some res else cache_find k entries) := by
  rfl

/-- Invariant tying the invocation log to the stored entries: a key whose
entry is absent cannot have been compiled yet, and no key is logged more
than once. -/
def cache_inv (k : MemoKey) (st : MemoCache) : Prop :=
  log_count k st.compiled_log ≤ 1 ∧
  (cache_find k st.entries = none → log_count k st.compiled_log = 0)

theorem cache_inv_step (k k2 : MemoKey) (st : MemoCache)
    (h : cache_inv k st) : cache_inv k (get_or_compile st k2).2 := by
  obtain ⟨hle, hnone⟩ := h
  unfold get_or_compile
  cases hfind : cache_find k2 st.entries with
  | some res => exact ⟨hle, hnone⟩
  | none =>
      simp only
      constructor
      · simp only [log_count]
        by_cases hkk : keyBeq k2 k
        · have : k2 = k := (keyBeq_iff k2 k).mp hkk
          subst this
          have := hnone hfind
          simp [hkk, this]
        · simp [hkk, hle]
      · intro hnone2
        rw [cache_find_extend] at hnone2
        by_cases hkk : keyBeq k2 k
        · simp [hkk] at hnone2
        · simp only [hkk, Bool.false_eq_true, if_false] at hnone2
          have hzero := hnone hnone2
          simp [log_count, hkk, hzero]

theorem cache_inv_run (k : MemoKey) :
    ∀ (ks : List MemoKey) (st : MemoCache),
      cache_inv k st → cache_inv k (run_requests ks st)
  | [], _, h => h
  | k2 :: ks, st, h =>
      cache_inv_run k ks (get_or_compile st k2).2 (cache_inv_step k k2 st h)

/-- C4: the memoized compilation entry point returns, on a second call
with the same key, the very result of the first call (hence a result that
behaves identically on every input value), and across any sequence of
requests served from an empty cache the underlying compiler routine is
invoked at most once per distinct key. -/
theorem memoized_compile_once (st : MemoCache) (k : MemoKey)
    (ks : List MemoKey) :
    (get_or_compile (get_or_compile st k).2 k).1 = (get_or_compile st k).1 ∧
    (∀ (rand : Nat) (v : Val),
      ((get_or_compile (get_or_compile st k).2 k).1).run rand v =
        ((get_or_compile st k).1).run rand v) ∧
    log_count k (run_requests ks ⟨[], []⟩).compiled_log ≤ 1 := by
  have hsame :
      (get_or_compile (get_or_compile st k).2 k).1 =
        (get_or_compile st k).1 := by
    unfold get_or_compile
    cases hfind : cache_find k st.entries with
    | some res => simp [hfind]
    | none =>
        simp only [hfind]
        rw [cache_find_extend]
        simp [keyBeq_refl]
  refine ⟨hsame, fun rand v => by rw [hsame], ?_⟩
  have hstart : cache_inv k ⟨[], []⟩ := by
    constructor <;> simp [log_count]
  exact (cache_inv_run k ks ⟨[], []⟩ hstart).1

theorem slice_trailing_append (a tok : List Char) :
    slice_trailing tok.length (a ++ tok) = a := by
  unfold slice_trailing
  rw [List.length_append]
  have hlen : a.length + tok.length - tok.length = a.length := by omega
  rw [hlen]
  rw [List.take_append_eq_append_take]
  simp

theorem render_children_append_tok (tok : List Char) :
    ∀ children : List (List Char), children ≠ [] →
      render_children (fun c => c ++ tok) children =
        join_sep tok children ++ tok := by
  intro children
  induction children with
  | nil => intro h; exact absurd rfl h
  | cons c rest ih =>
      intro _
      cases rest with
      | nil => simp [render_children, join_sep]
      | cons d rest2 =>
          have hr := ih (by simp)
          simp only [render_children, List.map_cons, List.flatten_cons] at hr ⊢
          rw [hr, join_sep]
          simp [List.append_assoc]

/-- C8: after the caller-side slice of the trailing joining token, a fully
rendered union fragment and a fully rendered itemized-tuple fragment
contain the ` or` (respectively ` and`) token strictly between consecutive
children and never after the last child: the completed children block
equals the children joined with the token as a separator. -/
theorem no_dangling_join_token (children : List (List Char))
    (h : children ≠ []) :
    slice_trailing OR_JOIN.length (render_children union_child_code children) =
      join_sep OR_JOIN children ∧
    slice_trailing AND_JOIN.length (render_children tuple_child_code children) =
      join_sep AND_JOIN children := by
  constructor
  · have hr : render_children union_child_code children =
        join_sep OR_JOIN children ++ OR_JOIN :=
      render_children_append_tok OR_JOIN children h
    rw [hr, slice_trailing_append]
  · have hr : render_children tuple_child_code children =
        join_sep AND_JOIN children ++ AND_JOIN :=
      render_children_append_tok AND_JOIN children h
    rw [hr, slice_trailing_append]

theorem expr_scope_union (conf : Conf) (cs : List Hint) :
    expr_scope conf (.union cs) = (cs.map (expr_scope conf)).flatten := by
  rw [expr_scope]
  rw [attach_map_eq cs (expr_scope conf)]

theorem expr_scope_tuple (conf : Conf) (items : List Hint) :
    expr_scope conf (.fixedTuple items) =
      (items.map (expr_scope conf)).flatten := by
  rw [expr_scope]
  rw [attach_map_eq items (expr_scope conf)]

theorem has_container_check_union (cs : List Hint) :
    has_container_check (.union cs) = cs.any has_container_check := by
  rw [has_container_check]
  exact attach_any_eq cs has_container_check

theorem has_container_check_tuple (items : List Hint) :
    has_container_check (.fixedTuple items) =
      items.any has_container_check := by
  rw [has_container_check]
  exact attach_any_eq items has_container_check

theorem scope_flatten_iff (conf : Conf) (cs : List Hint)
    (ih : ∀ c ∈ cs,
      (ARG_NAME_GETRANDBITS ∈ expr_scope conf c ↔
        (conf.sampling = true ∧ has_container_check c = true))) :
    (ARG_NAME_GETRANDBITS ∈ (cs.map (expr_scope conf)).flatten ↔
      (conf.sampling = true ∧ (cs.any has_container_check) = true)) := by
  rw [List.mem_flatten]
  rw [List.any_eq_true]
  constructor
  · rintro ⟨l, hl, hmem⟩
    rw [List.mem_map] at hl
    obtain ⟨c, hc, rfl⟩ := hl
    have := (ih c hc).mp hmem
    exact ⟨this.1, c, hc, this.2⟩
  · rintro ⟨hs, c, hc, hcont⟩
    exact ⟨expr_scope conf c, List.mem_map_of_mem (expr_scope conf) hc,
      (ih c hc).mpr ⟨hs, hcont⟩⟩

theorem scope_getrandbits_iff (conf : Conf) :
    ∀ h : Hint,
      (ARG_NAME_GETRANDBITS ∈ expr_scope conf h ↔
        (conf.sampling = true ∧ has_container_check h = true)) := by
  have hne : ARG_NAME_GETRANDBITS ≠ ARG_NAME_TYPISTRY := by
    simp [ARG_NAME_GETRANDBITS, ARG_NAME_TYPISTRY]
  have main : ∀ (n : Nat) (h : Hint), sizeOf h ≤ n →
      (ARG_NAME_GETRANDBITS ∈ expr_scope conf h ↔
        (conf.sampling = true ∧ has_container_check h = true)) := by
    intro n
    induction n with
    | zero =>
        intro h hsz
        cases h <;> simp_arith at hsz
    | succ n ih =>
        intro h hsz
        have hlist : ∀ (cs : List Hint), sizeOf cs ≤ n → ∀ c ∈ cs,
            (ARG_NAME_GETRANDBITS ∈ expr_scope conf c ↔
              (conf.sampling = true ∧ has_container_check c = true)) := by
          intro cs hcs c hc
          apply ih
          have := List.sizeOf_lt_of_mem hc
          omega
        cases h with
        | scalar t =>
            simp [expr_scope, has_container_check, hne]
        | container elem =>
            have he : sizeOf elem ≤ n := by
              simp only [Hint.container.sizeOf_spec] at hsz; omega
            rw [expr_scope]
            by_cases hs : conf.sampling = true
            · simp [hs, has_container_check]
            · have hs2 : conf.sampling = false := by
                cases hcs : conf.sampling
                · rfl
                · exact absurd hcs hs
              simp only [hs2, if_false, List.mem_append, List.mem_singleton,
                Bool.false_eq_true, false_and, iff_false]
              rintro (hmem | hmem)
              · exact hne hmem
              · have := (ih elem he).mp hmem
                rw [hs2] at this
                exact Bool.false_ne_true this.1
        | union cs =>
            have hcs : sizeOf cs ≤ n := by
              simp only [Hint.union.sizeOf_spec] at hsz; omega
            rw [expr_scope_union, has_container_check_union]
            exact scope_flatten_iff conf cs (hlist cs hcs)
        | fixedTuple items =>
            have hcs : sizeOf items ≤ n := by
              simp only [Hint.fixedTuple.sizeOf_spec] at hsz; omega
            rw [expr_scope_tuple, has_container_check_tuple]
            exact scope_flatten_iff conf items (hlist items hcs)
  intro h
  exact main (sizeOf h) h le_rfl

/-- C9: the wrapper code factory emits the code fragment passing the
pseudo-random integer to the violation callback iff the compiled scope
contains the random-number-source symbol `ARG_NAME_GETRANDBITS`, which in
turn happens iff sampling is enabled and some standard-container check
occurs in the specification; otherwise the emitted fragment is empty. -/
theorem random_int_arg_iff_scope (hint : Hint) (conf : Conf) :
    ((make_func_wrapper_code hint conf).2 ≠ [] ↔
      ARG_NAME_GETRANDBITS ∈ (make_check_expr hint conf).scope) ∧
    (ARG_NAME_GETRANDBITS ∈ (make_check_expr hint conf).scope ↔
      (conf.sampling = true ∧ has_container_check hint = true)) := by
  constructor
  · by_cases hmem : ARG_NAME_GETRANDBITS ∈ (make_check_expr hint conf).scope
    · simp [make_func_wrapper_code, make_check_expr, hmem,
        CODE_HINT_ROOT_SUFFIX_RANDOM_INT]
    · simp only [make_func_wrapper_code, make_check_expr] at hmem ⊢
      simp [hmem]
  · exact scope_getrandbits_iff conf hint

/-- C10: a positional-or-keyword or keyword-only parameter that is not
passed at call time is localized to the private `__beartypistry` registry
singleton (the never-passed sentinel), its entire type check is skipped
by the sentinel guard, and in particular the violation callback is never
invoked for it. -/
theorem unpassed_optional_param_skipped (call : WrapperCall)
    (arg_index : Nat) (arg_name : String) (conf : Conf) (r : Nat)
    (hint : Hint) (hpos : call.args.length ≤ arg_index)
    (hkw : call.kwargs.lookup arg_name = none) :
    localize_positional_or_keyword call arg_index arg_name = .beartypistry ∧
    param_type_check conf r hint arg_name
      (localize_positional_or_keyword call arg_index arg_name) = .skipped ∧
    localize_keyword_only call arg_name = .beartypistry ∧
    param_type_check conf r hint arg_name
      (localize_keyword_only call arg_name) = .skipped ∧
    (∀ n2 v2, param_type_check conf r hint arg_name
      (localize_positional_or_keyword call arg_index arg_name) ≠
        .checked (.violation n2 v2)) ∧
    (∀ n2 v2, param_type_check conf r hint arg_name
      (localize_keyword_only call arg_name) ≠
        .checked (.violation n2 v2)) := by
  have h1 : localize_positional_or_keyword call arg_index arg_name =
      .beartypistry := by
    unfold localize_positional_or_keyword
    rw [if_neg (by omega)]
    rw [hkw]
  have h2 : localize_keyword_only call arg_name = .beartypistry := by
    unfold localize_keyword_only
    rw [hkw]
  refine ⟨h1, ?_, h2, ?_, ?_, ?_⟩ <;>
    simp [h1, h2, param_type_check]

/-- Witness instantiating the fixed-tuple soundness theorem on the
one-item tuple hint and the conforming tuple `(5,)`. -/
theorem tuple_itemized_check_sound_witness :
    pep_check ⟨true⟩ 0 (.fixedTuple [.scalar .int]) (.tuple [.int 5]) =
      true :=
  (tuple_itemized_check_sound ⟨true⟩ 0 [.scalar .int]
    (.tuple [.int 5])).1.mpr
    ⟨[.int 5], rfl, rfl, by
      intro i hi hx
      simp only [List.length_cons, List.length_nil] at hi
      have h0 : i = 0 := by omega
      subst h0
      simp [pep_check_scalar, isinst]⟩

/-- Witness instantiating the union soundness theorem on a transposition
of a two-child union. -/
theorem union_check_sound_witness :
    pep_check ⟨true⟩ 0 (.union [.scalar .int, .scalar .str]) (.str ("x")) =
      pep_check ⟨true⟩ 0 (.union [.scalar .str, .scalar .int])
        (.str ("x")) :=
  (union_check_sound ⟨true⟩ 0 [.scalar .int, .scalar .str]
    [.scalar .str, .scalar .int] (.str ("x"))).2.2
    (List.Perm.swap (Hint.scalar .str) (Hint.scalar .int) [])

/-- Witness instantiating the container vacuous-truth theorem on the
empty list. -/
theorem sequence_standard_empty_vacuous_witness :
    pep_check ⟨true⟩ 0 (.container (.scalar .str)) (.list []) = true :=
  (sequence_standard_empty_vacuous ⟨true⟩ 0 (.scalar .str)).1

/-- Witness instantiating the memoization theorem on a concrete key from
the empty cache. -/
theorem memoized_compile_once_witness :
    (get_or_compile
      (get_or_compile ⟨[], []⟩ (.scalar .int, ⟨true⟩)).2
      (.scalar .int, ⟨true⟩)).1 =
      (get_or_compile (⟨[], []⟩ : MemoCache) (.scalar .int, ⟨true⟩)).1 :=
  (memoized_compile_once ⟨[], []⟩ (.scalar .int, ⟨true⟩) []).1

/-- Witness instantiating the root-check callback theorem on a violating
input. -/
theorem root_check_callback_iff_witness :
    pep_code_check_hint_root ⟨true⟩ 0 (.scalar .int) ("a") (.str ("b")) =
      .violation ("a") (.str ("b")) :=
  (root_check_callback_iff ⟨true⟩ 0 (.scalar .int) ("a")
    (.str ("b"))).1.mpr (by simp [pep_check_scalar, isinst])

/-- Witness instantiating the sampled-index safety theorem on a two
element container with random integer 5. -/
theorem sequence_sampled_index_safe_witness :
    5 % ([Val.int 3, Val.int 4] : List Val).length <
      ([Val.int 3, Val.int 4] : List Val).length :=
  (sequence_sampled_index_safe ⟨true⟩ 5 (.scalar .int) [.int 3, .int 4]
    rfl (by simp)).1

/-- Witness instantiating the dangling-token theorem on a two-child
fragment list. -/
theorem no_dangling_join_token_witness :
    slice_trailing OR_JOIN.length
      (render_children union_child_code [['a'], ['b']]) =
      join_sep OR_JOIN [['a'], ['b']] :=
  (no_dangling_join_token [['a'], ['b']] (by simp)).1

/-- Witness instantiating the random-integer-argument theorem on a
sampled container hint. -/
theorem random_int_arg_iff_scope_witness :
    ARG_NAME_GETRANDBITS ∈
      (make_check_expr (.container (.scalar .int)) ⟨true⟩).scope :=
  (random_int_arg_iff_scope (.container (.scalar .int)) ⟨true⟩).2.mpr
    ⟨rfl, by simp [has_container_check]⟩

/-- Witness instantiating the unpassed-parameter theorem on a call with
no arguments at all. -/
theorem unpassed_optional_param_skipped_witness :
    param_type_check ⟨true⟩ 0 (.scalar .int) ("x")
      (localize_positional_or_keyword ⟨[], []⟩ 0 ("x")) = .skipped :=
  (unpassed_optional_param_skipped ⟨[], []⟩ 0 ("x") ⟨true⟩ 0 (.scalar .int)
    (by simp) (by simp [List.lookup])).2.1

end Beartype
